import Mathlib

/-!
Verification of the iodine session-layer core: the authenticated framing
functions of `src/encoding.c` (`downstream_encode` / `downstream_decode`,
codec selection) and the sequence arithmetic of `src/window.h`
(`DISTF` / `DISTB` / `SEQ_OFFSET`).

Bytes are modelled as `Nat` values below 256, buffers as `List Nat`.
The global `downstream_decode_err` variable becomes an explicit input
(`err0`, the value the global holds before the call) and an output field.
The external bit-packing codecs, the HMAC-MD5 primitive, the base32
flag-byte map and the header constants live outside `src/`; they are
modelled from the spec where noted.
-/

set_option maxRecDepth 16384

namespace Iodine

/-- Modelled from the spec (encoding.h is absent from src/): downstream
header flag bits; the flags byte keeps its low 3 bits for the codec id,
one bit for the short (32-bit) MAC and one bit for the error signal. -/
def DH_HMAC32 : Nat := 8

/-- Modelled from the spec (encoding.h is absent from src/): the error
flag bit of the downstream header flags byte. -/
def DH_ERROR : Nat := 16

/-- Modelled from the spec (encoding.h is absent from src/): 3-bit codec
identifier for base32, the safest (most restrictive) codec. -/
def C_BASE32 : Nat := 0

/-- Modelled from the spec (encoding.h is absent from src/): codec id of base64. -/
def C_BASE64 : Nat := 1

/-- Modelled from the spec (encoding.h is absent from src/): codec id of base64u. -/
def C_BASE64U : Nat := 2

/-- Modelled from the spec (encoding.h is absent from src/): codec id of base128. -/
def C_BASE128 : Nat := 3

/-- Modelled from the spec (encoding.h is absent from src/): codec id of the raw
(identity) codec. -/
def C_RAW : Nat := 4

/-- Modelled from the spec (encoding.h is absent from src/): the value
`get_codec_from_name` returns for an unrecognised name; it selects no encoder. -/
def C_UNSET : Nat := 7

/-- Modelled from the spec (encoding.h is absent from src/): decode error bit
for a MAC mismatch. -/
def DDERR_BADHMAC : Nat := 8

/-- Modelled from the spec (encoding.h is absent from src/): decode error bit
for a frame too short to carry counter plus MAC. -/
def DDERR_TOOSHORT : Nat := 16

/-- Modelled from the spec (encoding.h is absent from src/): decode error bit
for a peer-reported application error (low 3 bits carry the error sub-code). -/
def DDERR_IS_ANS : Nat := 32

/- ---------------------------------------------------------------------
   Bit-packing codec model.

   The concrete codecs (base32.c, base64.c, base64u.c, base128.c,
   base256.c) are external collaborators that are absent from src/.
   Modelled from the spec: each codec deterministically packs raw bytes
   into k-bit carrier symbols (k = 5, 6, 7 and 8 respectively) through an
   injective symbol alphabet, and `decode(encode(x)) = x` for every byte
   string x within size limits.
   --------------------------------------------------------------------- -/

/-- Value of a little-endian list of bits (each entry 0 or 1). -/
def bitsToNat (bs : List Nat) : Nat :=
  bs.foldr (fun b a => b + 2 * a) 0

/-- The `k` low-order bits of `n`, little-endian. -/
def natToBits : Nat → Nat → List Nat
  | 0, _ => []
  | k + 1, n => n % 2 :: natToBits k (n / 2)

/-- Bit stream of a byte string, 8 bits per byte. -/
def bytesToBits (data : List Nat) : List Nat :=
  data.flatMap (natToBits 8)

/-- Group a bit stream into values of `k` bits each, zero-padding the final
group.  `fuel` bounds the recursion; `fuel = bits.length` is always enough
when `k > 0`. -/
def packBitsF : Nat → Nat → List Nat → List Nat
  | 0, _, _ => []
  | _ + 1, 0, _ => []
  | fuel + 1, k + 1, bits =>
    if bits.isEmpty then []
    else
      bitsToNat (bits.take (k + 1) ++ List.replicate (k + 1 - bits.length) 0)
        :: packBitsF fuel (k + 1) (bits.drop (k + 1))

/-- Group a bit stream into `k`-bit values. -/
def packBits (k : Nat) (bits : List Nat) : List Nat :=
  packBitsF bits.length k bits

/-- Modelled from the spec: one external codec, characterised by its bit
width per carrier symbol and its (injective) symbol alphabet. -/
structure encoder where
  k : Nat
  toSym : Nat → Nat
  fromSym : Nat → Nat

/-- Modelled from the spec: full encoding of a byte string by a codec
(no output-buffer limit). -/
def encRun (e : encoder) (data : List Nat) : List Nat :=
  (packBits e.k (bytesToBits data)).map e.toSym

/-- Modelled from the spec: full decoding of a symbol string by a codec;
the raw length recovered from `n` symbols is `n * k / 8` bytes. -/
def decRun (e : encoder) (syms : List Nat) : List Nat :=
  packBits 8 (((syms.map e.fromSym).flatMap (natToBits e.k)).take (8 * (syms.length * e.k / 8)))

/-- Number of carrier symbols a codec of width `k` needs for `d` raw bytes. -/
def encLenF (k d : Nat) : Nat := (8 * d + k - 1) / k

/-- Modelled from the spec (base32.c absent): base32 symbol alphabet,
lower-case letters then digits. -/
def b32sym (v : Nat) : Nat :=
  if v < 26 then 97 + v else 48 + (v - 26)

/-- Modelled from the spec (base32.c absent): inverse base32 alphabet. -/
def b32inv (c : Nat) : Nat :=
  if 97 ≤ c ∧ c ≤ 122 then c - 97
  else if 48 ≤ c ∧ c ≤ 53 then 26 + (c - 48)
  else 0

/-- Modelled from the spec (base64.c absent): base64 symbol alphabet. -/
def b64sym (v : Nat) : Nat :=
  if v < 26 then 65 + v
  else if v < 52 then 97 + (v - 26)
  else if v < 62 then 48 + (v - 52)
  else if v = 62 then 43 else 47

/-- Modelled from the spec (base64.c absent): inverse base64 alphabet. -/
def b64inv (c : Nat) : Nat :=
  if 65 ≤ c ∧ c ≤ 90 then c - 65
  else if 97 ≤ c ∧ c ≤ 122 then 26 + (c - 97)
  else if 48 ≤ c ∧ c ≤ 57 then 52 + (c - 48)
  else if c = 43 then 62
  else if c = 47 then 63
  else 0

/-- Modelled from the spec (base64u.c absent): base64u alphabet, URL-safe
final symbols. -/
def b64usym (v : Nat) : Nat :=
  if v < 26 then 65 + v
  else if v < 52 then 97 + (v - 26)
  else if v < 62 then 48 + (v - 52)
  else if v = 62 then 45 else 95

/-- Modelled from the spec (base64u.c absent): inverse base64u alphabet. -/
def b64uinv (c : Nat) : Nat :=
  if 65 ≤ c ∧ c ≤ 90 then c - 65
  else if 97 ≤ c ∧ c ≤ 122 then 26 + (c - 97)
  else if 48 ≤ c ∧ c ≤ 57 then 52 + (c - 48)
  else if c = 45 then 62
  else if c = 95 then 63
  else 0

/-- Modelled from the spec (base128.c absent): base128 alphabet, symbols
with the high bit set. -/
def b128sym (v : Nat) : Nat := 128 + v

/-- Modelled from the spec (base128.c absent): inverse base128 alphabet. -/
def b128inv (c : Nat) : Nat := if 128 ≤ c then c - 128 else 0

/-- Modelled from the spec: the base32 codec (5 bits per symbol). -/
def b32 : encoder := ⟨5, b32sym, b32inv⟩

/-- Modelled from the spec: the base64 codec (6 bits per symbol). -/
def b64 : encoder := ⟨6, b64sym, b64inv⟩

/-- Modelled from the spec: the base64u codec (6 bits per symbol). -/
def b64u : encoder := ⟨6, b64usym, b64uinv⟩

/-- Modelled from the spec: the base128 codec (7 bits per symbol). -/
def b128 : encoder := ⟨7, b128sym, b128inv⟩

/-- Modelled from the spec: the raw identity codec (8 bits per symbol). -/
def b256 : encoder := ⟨8, fun v => v, fun v => v⟩

/-- Modelled from the spec (base32.c absent): map a 5-bit flags value to its
base32 carrier byte; the flags byte of a frame travels through this map. -/
def b32_5to8 (v : Nat) : Nat := b32sym (v % 32)

/-- Modelled from the spec (base32.c absent): recover the 5-bit flags value
from the leading carrier byte of a frame. -/
def b32_8to5 (c : Nat) : Nat := b32inv c

/-- Modelled from the spec (hmac_md5.c absent): a deterministic stand-in for
HMAC-MD5; the claims rely only on it being a pure function of key and
message producing 16 bytes. -/
def hmac_md5 (key msg : List Nat) : List Nat :=
  (List.range 16).map (fun i =>
    (msg.foldl (fun a b => (a * 131 + b + 11) % 256)
      (key.foldl (fun a b => (a * 131 + b + 7) % 256) (i * 17))) % 256)

/-- Modelled from the spec (get_rand_bytes absent): the 16 random MAC-field
bytes used for pre-authentication frames, as an arbitrary fixed value. -/
def rand16 : List Nat := List.replicate 16 0

/-- Modelled from the spec (read.h absent): `putlong`, a 32-bit value in
network byte order. -/
def be32 (n : Nat) : List Nat :=
  [n / 16777216 % 256, n / 65536 % 256, n / 256 % 256, n % 256]

/- ---------------------------------------------------------------------
   encoding.c
   --------------------------------------------------------------------- -/

/-- Lower-case one byte, as C `tolower` on ASCII. -/
def cLower (c : Nat) : Nat :=
  if 65 ≤ c ∧ c ≤ 90 then c + 32 else c

/-- Case-insensitive string equality, as `!strcasecmp`. -/
def strcaseEq (a b : List Nat) : Prop :=
  a.map cLower = b.map cLower

instance (a b : List Nat) : Decidable (strcaseEq a b) := by
  unfold strcaseEq; infer_instance

/-- Byte string of the name base32. -/
def nameBase32 : List Nat := [98, 97, 115, 101, 51, 50]

/-- Byte string of the name base64. -/
def nameBase64 : List Nat := [98, 97, 115, 101, 54, 52]

/-- Byte string of the name base64u. -/
def nameBase64u : List Nat := [98, 97, 115, 101, 54, 52, 117]

/-- Byte string of the name base128. -/
def nameBase128 : List Nat := [98, 97, 115, 101, 49, 50, 56]

/-- Byte string of the name raw. -/
def nameRaw : List Nat := [114, 97, 119]

/-- `get_codec_from_name` of encoding.c: case-insensitive lookup of the five
codec names; anything else yields `C_UNSET`. -/
def get_codec_from_name (encoding : List Nat) : Nat :=
  if strcaseEq encoding nameBase32 then C_BASE32
  else if strcaseEq encoding nameBase64 then C_BASE64
  else if strcaseEq encoding nameBase64u then C_BASE64U
  else if strcaseEq encoding nameBase128 then C_BASE128
  else if strcaseEq encoding nameRaw then C_RAW
  else C_UNSET

/-- `get_encoder` of encoding.c: select the encoder from the low 3 bits of
the codec byte (`codec & 0x7`); unassigned values select none. -/
def get_encoder (codec : Nat) : Option encoder :=
  if codec &&& 7 = C_BASE32 then some b32
  else if codec &&& 7 = C_BASE64 then some b64
  else if codec &&& 7 = C_BASE64U then some b64u
  else if codec &&& 7 = C_BASE128 then some b128
  else if codec &&& 7 = C_RAW then some b256
  else none

/-- `encode_data` of encoding.c.  `buf` is the output buffer contents,
`buflen` its capacity; one byte of the capacity is reserved for the trailing
zero byte the C encoders append.  Returns the number of bytes written and
the buffer afterwards; with no encoder nothing is encoded and the buffer is
untouched. -/
def encode_data (buf : List Nat) (buflen : Nat) (data : List Nat) (codec : Nat) :
    Nat × List Nat :=
  match get_encoder codec with
  | none => (0, buf)
  | some e =>
    let out := (encRun e data).take (buflen - 1)
    (out.length, out ++ buf.drop out.length)

/-- `unpack_data` of encoding.c: decode `data` into the buffer `buf` of
capacity `buflen`; with no encoder nothing is unpacked and the buffer is
untouched. -/
def unpack_data (buf : List Nat) (buflen : Nat) (data : List Nat) (codec : Nat) :
    Nat × List Nat :=
  match get_encoder codec with
  | none => (0, buf)
  | some e =>
    let out := (decRun e data).take buflen
    (out.length, out ++ buf.drop out.length)

/-- Lines 133-141 of encoding.c: the flags byte and codec actually used by
`downstream_encode`.  With the error flag set the short-MAC flag is forced
off and the codec is forced to base32; otherwise both pass through. -/
def dh_adjust (flags : Nat) : Nat × Nat :=
  if flags &&& DH_ERROR ≠ 0 then
    (if flags &&& DH_HMAC32 ≠ 0 then flags ^^^ DH_HMAC32 else flags, C_BASE32)
  else (flags, flags &&& 7)

/-- Line 142 of encoding.c: MAC length from the (adjusted) flags byte. -/
def dh_hmaclen (flags : Nat) : Nat :=
  if flags &&& DH_HMAC32 ≠ 0 then 4 else 12

/-- `downstream_encode` of encoding.c: build one authenticated downstream
frame.  `outbuf` is the output buffer (its length is the capacity the C
code receives in `*outlen`); `none` models the C return 0 (buffer too
small), `some (n, out)` the C return 1 with reported length `n` and buffer
contents `out`. -/
def downstream_encode (outbuf data : List Nat) (key : Option (List Nat))
    (flags cmc : Nat) : Option (Nat × List Nat) :=
  let fe := dh_adjust flags
  let hmaclen := dh_hmaclen fe.1
  if outbuf.length < 5 + hmaclen + data.length then none
  else
    let len := 1 + 4 + hmaclen + data.length
    let fb := b32_5to8 fe.1
    let hmacbuf := be32 len ++ [fb] ++ be32 cmc ++ List.replicate hmaclen 0 ++ data
    let hm := match key with
      | some hk => hmac_md5 hk hmacbuf
      | none => rand16
    let body := be32 cmc ++ hm.take hmaclen ++ data
    let r := encode_data (outbuf.drop 1) (outbuf.length - 2) body fe.2
    some (r.1 + 1, fb :: r.2)

/-- The bytes `downstream_encode` feeds to the bulk encoder when the error
flag is clear: counter, truncated MAC, payload (`hmacbuf + 5` in the C). -/
def frameBody (flags cmc : Nat) (key data : List Nat) : List Nat :=
  be32 cmc ++
    (hmac_md5 key (be32 (1 + 4 + dh_hmaclen flags + data.length) ++ [b32_5to8 flags] ++
      be32 cmc ++ List.replicate (dh_hmaclen flags) 0 ++ data)).take (dh_hmaclen flags) ++
    data

/-- Result of `downstream_decode`: C return value, reported `*outlen`,
output buffer contents, and the value of the global
`downstream_decode_err` after the call. -/
structure DecRes where
  ret : Nat
  outlen : Nat
  out : List Nat
  err : Nat
  deriving Repr, DecidableEq

/-- The `_dderr` exit of `downstream_decode`: the raw encoded input is
copied verbatim (up to the output capacity) into the output buffer and the
call fails with error state `err`. -/
def dderrRes (outbuf encdata : List Nat) (err : Nat) : DecRes :=
  let ol := min outbuf.length encdata.length
  ⟨0, ol, encdata.take ol ++ outbuf.drop ol, err⟩

/-- Lines 241-282 of encoding.c: decode the body, verify the MAC when a key
is present, and deliver the payload.  `flags` is the flags byte after the
error-flag adjustment, `errcode` the embedded 3-bit error code (0 when the
error flag is clear, matching the C variable only where it is read) and
`errCur` the current value of `downstream_decode_err`. -/
def decodeRest (outbuf encdata : List Nat) (key : Option (List Nat))
    (flags errcode errCur hmaclen : Nat) : DecRes :=
  let elen := encdata.length
  let p := unpack_data (List.replicate (elen - 1) 0) (elen - 1) (encdata.drop 1) (flags &&& 7)
  let len := p.1
  let wb := p.2
  if len < 4 + hmaclen then dderrRes outbuf encdata DDERR_TOOSHORT
  else
    let finish : DecRes :=
      if outbuf.length < len - 4 - hmaclen then dderrRes outbuf encdata errCur
      else if flags &&& DH_ERROR = 0 then
        ⟨1, len - 4 - hmaclen,
          (wb.drop (4 + hmaclen)).take (len - 4 - hmaclen) ++ outbuf.drop (len - 4 - hmaclen),
          errCur⟩
      else dderrRes outbuf encdata (errcode ||| DDERR_IS_ANS)
    match key with
    | none => finish
    | some hk =>
      let pre := be32 (len + 1) ++ [encdata.getD 0 0] ++ wb.take 4 ++
        List.replicate hmaclen 0 ++ (wb.drop (4 + hmaclen)).take (len - 4 - hmaclen)
      let hmacPkt := (wb.drop 4).take hmaclen
      if (hmac_md5 hk pre).take hmaclen ≠ hmacPkt then dderrRes outbuf encdata DDERR_BADHMAC
      else finish

/-- `downstream_decode` of encoding.c: validate the downstream header and
MAC and decode the payload.  `err0` is the value the global
`downstream_decode_err` holds before the call. -/
def downstream_decode (outbuf encdata : List Nat) (key : Option (List Nat))
    (err0 : Nat) : DecRes :=
  if encdata.length < 2 then dderrRes outbuf encdata err0
  else
    let flags := b32_8to5 (encdata.getD 0 0)
    let hmaclen := if flags &&& DH_HMAC32 ≠ 0 then 4 else 12
    if flags &&& DH_ERROR ≠ 0 then
      if hmaclen = 4 then dderrRes outbuf encdata (DDERR_IS_ANS ||| DDERR_BADHMAC)
      else decodeRest outbuf encdata key C_BASE32 (flags &&& 7) DDERR_IS_ANS hmaclen
    else decodeRest outbuf encdata key flags 0 err0 hmaclen

/- ---------------------------------------------------------------------
   window.h
   --------------------------------------------------------------------- -/

/-- `MAX_SEQ_ID` of window.h. -/
def MAX_SEQ_ID : Nat := 256

/-- `MAX_SEQ_AHEAD` of window.h. -/
def MAX_SEQ_AHEAD : Nat := MAX_SEQ_ID / 2

/-- `DISTF` of window.h: forward distance from `a` to `b` in a space of
size `l`. -/
def DISTF (l a b : Nat) : Nat :=
  if a ≤ b then b - a else l - a + b

/-- `DISTB` of window.h: backward distance from `a` to `b`. -/
def DISTB (l a b : Nat) : Nat :=
  l - DISTF l a b

/-- `SEQ_OFFSET` of window.h: wrapped offset of sequence id `a` from
`start`. -/
def SEQ_OFFSET (start a : Nat) : Nat :=
  if a ≥ start then a - start else MAX_SEQ_ID - start + a

/- ---------------------------------------------------------------------
   Helper lemmas
   --------------------------------------------------------------------- -/

theorem list_map_fix (l : List Nat) (f : Nat → Nat) (h : ∀ x ∈ l, f x = x) :
    l.map f = l := by
  induction l with
  | nil => rfl
  | cons a t ih =>
    simp only [List.map_cons, h a (by simp)]
    rw [ih (fun x hx => h x (by simp [hx]))]

theorem cLower_cLower (c : Nat) : cLower (cLower c) = cLower c := by
  unfold cLower
  split_ifs <;> omega

theorem strcaseEq_lowername (s n : List Nat) (hn : n.map cLower = n) :
    strcaseEq s n ↔ s.map cLower = n := by
  unfold strcaseEq
  rw [hn]

theorem DISTF_le (l a b : Nat) (ha : a < l) (hb : b < l) : DISTF l a b ≤ l := by
  unfold DISTF
  split <;> omega

/- ---------------------------------------------------------------------
   Codec round-trip lemmas
   --------------------------------------------------------------------- -/

theorem natToBits_length (k : Nat) : ∀ n, (natToBits k n).length = k := by
  induction k with
  | zero => intro n; rfl
  | succ k ih => intro n; simp [natToBits, ih]

theorem natToBits_lt_two (k : Nat) : ∀ n, ∀ b ∈ natToBits k n, b < 2 := by
  induction k with
  | zero => intro n b hb; simp [natToBits] at hb
  | succ k ih =>
    intro n b hb
    simp only [natToBits, List.mem_cons] at hb
    rcases hb with h | h
    · omega
    · exact ih _ b h

theorem bitsToNat_cons (b : Nat) (bs : List Nat) :
    bitsToNat (b :: bs) = b + 2 * bitsToNat bs := rfl

theorem natToBits_bitsToNat (bs : List Nat) (h : ∀ b ∈ bs, b < 2) :
    natToBits bs.length (bitsToNat bs) = bs := by
  induction bs with
  | nil => rfl
  | cons b t ih =>
    have hb : b < 2 := h b (by simp)
    simp only [List.length_cons, natToBits, bitsToNat_cons]
    have h2 : (b + 2 * bitsToNat t) % 2 = b := by omega
    have h3 : (b + 2 * bitsToNat t) / 2 = bitsToNat t := by omega
    rw [h2, h3, ih (fun x hx => h x (by simp [hx]))]

theorem bitsToNat_natToBits (k : Nat) : ∀ n, bitsToNat (natToBits k n) = n % 2 ^ k := by
  induction k with
  | zero => intro n; simp [natToBits, bitsToNat, Nat.mod_one]
  | succ k ih =>
    intro n
    simp only [natToBits, bitsToNat_cons, ih]
    rw [pow_succ, Nat.mul_comm (2 ^ k) 2, Nat.mod_mul]

theorem bitsToNat_lt (bs : List Nat) (h : ∀ b ∈ bs, b < 2) :
    bitsToNat bs < 2 ^ bs.length := by
  induction bs with
  | nil => simp [bitsToNat]
  | cons b t ih =>
    have hb : b < 2 := h b (by simp)
    have ht := ih (fun x hx => h x (by simp [hx]))
    simp only [bitsToNat_cons, List.length_cons, pow_succ]
    omega

theorem bytesToBits_length (data : List Nat) : (bytesToBits data).length = 8 * data.length := by
  induction data with
  | nil => rfl
  | cons b t ih =>
    simp only [bytesToBits, List.flatMap_cons] at ih ⊢
    simp [ih, natToBits_length]
    ring

theorem bytesToBits_lt_two (data : List Nat) : ∀ b ∈ bytesToBits data, b < 2 := by
  intro b hb
  simp only [bytesToBits, List.mem_flatMap] at hb
  obtain ⟨x, _, hx⟩ := hb
  exact natToBits_lt_two 8 x b hx

theorem packBitsF_nil (fuel k : Nat) : packBitsF fuel k [] = [] := by
  cases fuel with
  | zero => rfl
  | succ f => cases k with
    | zero => rfl
    | succ k => simp [packBitsF]

theorem packBitsF_chunk_length (k : Nat) (bits : List Nat) (hne : bits ≠ []) :
    (bits.take (k + 1) ++ List.replicate (k + 1 - bits.length) 0).length = k + 1 := by
  have hpos : 0 < bits.length := List.length_pos.mpr hne
  simp [List.length_take, List.length_replicate]
  omega

theorem packBitsF_mem_lt (k : Nat) : ∀ fuel (bits : List Nat), (∀ b ∈ bits, b < 2) →
    ∀ x ∈ packBitsF fuel (k + 1) bits, x < 2 ^ (k + 1) := by
  intro fuel
  induction fuel with
  | zero => intro bits _ x hx; simp [packBitsF] at hx
  | succ f ih =>
    intro bits hb x hx
    by_cases hne : bits = []
    · subst hne; simp [packBitsF] at hx
    · rw [packBitsF, if_neg (by simpa using hne)] at hx
      rcases List.mem_cons.mp hx with h | h
      · subst h
        have hlen := packBitsF_chunk_length k bits hne
        have hmem : ∀ b ∈ bits.take (k + 1) ++ List.replicate (k + 1 - bits.length) 0, b < 2 := by
          intro b hmem
          rcases List.mem_append.mp hmem with h' | h'
          · exact hb b (List.mem_of_mem_take h')
          · rw [List.eq_of_mem_replicate h']; omega
        have := bitsToNat_lt _ hmem
        rwa [hlen] at this
      · exact ih _ (fun b hbm => hb b (List.mem_of_mem_drop hbm)) x h

theorem packBitsF_flatMap (k : Nat) : ∀ fuel (bits : List Nat), bits.length ≤ fuel →
    (∀ b ∈ bits, b < 2) →
    ∃ pad : Nat, (packBitsF fuel (k + 1) bits).flatMap (natToBits (k + 1)) =
      bits ++ List.replicate pad 0 := by
  intro fuel
  induction fuel with
  | zero =>
    intro bits hf _
    have : bits = [] := List.eq_nil_of_length_eq_zero (by omega)
    subst this
    exact ⟨0, by simp [packBitsF]⟩
  | succ f ih =>
    intro bits hf hb
    by_cases hne : bits = []
    · subst hne; exact ⟨0, by simp [packBitsF_nil]⟩
    · rw [packBitsF, if_neg (by simpa using hne)]
      have hlen := packBitsF_chunk_length k bits hne
      have hmem : ∀ b ∈ bits.take (k + 1) ++ List.replicate (k + 1 - bits.length) 0, b < 2 := by
        intro b hmem
        rcases List.mem_append.mp hmem with h' | h'
        · exact hb b (List.mem_of_mem_take h')
        · rw [List.eq_of_mem_replicate h']; omega
      have hchunk := natToBits_bitsToNat
        (bits.take (k + 1) ++ List.replicate (k + 1 - bits.length) 0) hmem
      rw [hlen] at hchunk
      obtain ⟨pad, hpad⟩ := ih (bits.drop (k + 1))
        (by simp [List.length_drop]; omega)
        (fun b hbm => hb b (List.mem_of_mem_drop hbm))
      rw [List.flatMap_cons, hchunk, hpad]
      by_cases hlong : bits.length ≤ k + 1
      · refine ⟨(k + 1 - bits.length) + pad, ?_⟩
        rw [List.drop_eq_nil_of_le hlong]
        simp only [List.nil_append, List.take_of_length_le hlong]
        rw [List.append_assoc, ← List.replicate_add]
      · refine ⟨pad, ?_⟩
        have : k + 1 - bits.length = 0 := by omega
        rw [this]
        simp only [List.replicate_zero, List.append_nil]
        rw [← List.append_assoc, List.take_append_drop]

theorem packBitsF_bytes : ∀ (data : List Nat) fuel, (∀ b ∈ data, b < 256) →
    (bytesToBits data).length ≤ fuel →
    packBitsF fuel 8 (bytesToBits data) = data := by
  intro data
  induction data with
  | nil => intro fuel _ _; exact packBitsF_nil fuel 8
  | cons b t ih =>
    intro fuel hb hf
    have hblen : (bytesToBits (b :: t)).length = 8 + (bytesToBits t).length := by
      simp [bytesToBits, natToBits_length]
    cases fuel with
    | zero => rw [hblen] at hf; omega
    | succ f =>
      have hne : bytesToBits (b :: t) ≠ [] := by
        intro h
        rw [h] at hblen
        simp only [List.length_nil] at hblen
        omega
      show packBitsF (f + 1) (7 + 1) (bytesToBits (b :: t)) = b :: t
      rw [packBitsF, if_neg (by simpa using hne)]
      have hsplit : bytesToBits (b :: t) = natToBits 8 b ++ bytesToBits t := by
        simp [bytesToBits]
      have hlen8 : (natToBits 8 b).length = 8 := natToBits_length 8 b
      have htake : (bytesToBits (b :: t)).take 8 = natToBits 8 b := by
        rw [hsplit]
        have h := List.take_left (natToBits 8 b) (bytesToBits t)
        rwa [hlen8] at h
      have hdrop : (bytesToBits (b :: t)).drop 8 = bytesToBits t := by
        rw [hsplit]
        have h := List.drop_left (natToBits 8 b) (bytesToBits t)
        rwa [hlen8] at h
      have hpad : 7 + 1 - (bytesToBits (b :: t)).length = 0 := by
        rw [hblen]; omega
      rw [show (7 : Nat) + 1 = 8 from rfl, htake, hdrop, hpad]
      simp only [List.replicate_zero, List.append_nil]
      rw [bitsToNat_natToBits]
      have hb0 : b < 256 := hb b (by simp)
      rw [Nat.mod_eq_of_lt (by norm_num [hb0] : b < 2 ^ 8)]
      congr 1
      exact ih f (fun x hx => hb x (by simp [hx])) (by rw [hblen] at hf; omega)

theorem packBitsF_length (k : Nat) : ∀ fuel (bits : List Nat), bits.length ≤ fuel →
    (packBitsF fuel (k + 1) bits).length = (bits.length + (k + 1) - 1) / (k + 1) := by
  intro fuel
  induction fuel with
  | zero =>
    intro bits hf
    have : bits = [] := List.eq_nil_of_length_eq_zero (by omega)
    subst this
    simp only [packBitsF, List.length_nil]
    symm
    apply Nat.div_eq_of_lt
    omega
  | succ f ih =>
    intro bits hf
    by_cases hne : bits = []
    · subst hne
      simp only [packBitsF, List.isEmpty_nil, if_true, List.length_nil]
      symm
      apply Nat.div_eq_of_lt
      omega
    · rw [packBitsF, if_neg (by simpa using hne)]
      have hpos : 0 < bits.length := List.length_pos.mpr hne
      simp only [List.length_cons, ih (bits.drop (k + 1)) (by simp [List.length_drop]; omega),
        List.length_drop]
      by_cases hlong : bits.length ≤ k + 1
      · have h1 : bits.length - (k + 1) = 0 := by omega
        rw [h1]
        have h2 : (0 + (k + 1) - 1) / (k + 1) = 0 := Nat.div_eq_of_lt (by omega)
        rw [h2]
        have h3 : bits.length + (k + 1) - 1 = (bits.length - 1) + (k + 1) := by omega
        rw [h3, Nat.add_div_right _ (by omega), Nat.div_eq_of_lt (by omega)]
      · have h3 : bits.length + (k + 1) - 1 = (bits.length - (k + 1) + (k + 1) - 1) + (k + 1) := by
          omega
        rw [h3, Nat.add_div_right _ (by omega)]

theorem packBits_length (k : Nat) (hk : 0 < k) (bits : List Nat) :
    (packBits k bits).length = (bits.length + k - 1) / k := by
  obtain ⟨k', rfl⟩ : ∃ k', k = k' + 1 := ⟨k - 1, by omega⟩
  exact packBitsF_length k' bits.length bits le_rfl

theorem encRun_length (e : encoder) (hk : 0 < e.k) (data : List Nat) :
    (encRun e data).length = encLenF e.k data.length := by
  unfold encRun encLenF
  rw [List.length_map, packBits_length e.k hk, bytesToBits_length]

theorem encLenF_ge (k d : Nat) (hk : 0 < k) (hk8 : k ≤ 8) : d ≤ encLenF k d := by
  unfold encLenF
  rw [Nat.le_div_iff_mul_le hk]
  have h1 : d * k ≤ d * 8 := Nat.mul_le_mul_left d hk8
  omega

theorem encLenF_pos (k d : Nat) (hk : 0 < k) (hd : 0 < d) : 0 < encLenF k d := by
  unfold encLenF
  apply Nat.div_pos _ hk
  omega

theorem ceil_mul_div_eight (k d : Nat) (hk : 0 < k) (hk8 : k ≤ 8) :
    (8 * d + k - 1) / k * k / 8 = d := by
  have hdm := Nat.div_add_mod (8 * d + k - 1) k
  have hml : (8 * d + k - 1) % k < k := Nat.mod_lt _ hk
  have hcm : (8 * d + k - 1) / k * k = k * ((8 * d + k - 1) / k) := Nat.mul_comm _ _
  rw [hcm]
  generalize hq : k * ((8 * d + k - 1) / k) = q at hdm ⊢
  generalize hr : (8 * d + k - 1) % k = r at hdm hml
  omega

theorem packBits_mem_lt (k : Nat) (hk : 0 < k) (bits : List Nat) (h2 : ∀ b ∈ bits, b < 2) :
    ∀ x ∈ packBits k bits, x < 2 ^ k := by
  obtain ⟨k', rfl⟩ : ∃ k', k = k' + 1 := ⟨k - 1, by omega⟩
  exact packBitsF_mem_lt k' bits.length bits h2

theorem packBits_flatMap (k : Nat) (hk : 0 < k) (bits : List Nat) (h2 : ∀ b ∈ bits, b < 2) :
    ∃ pad, (packBits k bits).flatMap (natToBits k) = bits ++ List.replicate pad 0 := by
  obtain ⟨k', rfl⟩ : ∃ k', k = k' + 1 := ⟨k - 1, by omega⟩
  exact packBitsF_flatMap k' bits.length bits le_rfl h2

theorem packBits_bytes (data : List Nat) (hd : ∀ b ∈ data, b < 256) :
    packBits 8 (bytesToBits data) = data :=
  packBitsF_bytes data (bytesToBits data).length hd le_rfl

/-- Round trip of the codec model: decoding an encoded byte string returns
it exactly, for every codec width `1..8` with an invertible alphabet. -/
theorem codec_roundtrip (e : encoder) (hk : 0 < e.k) (hk8 : e.k ≤ 8)
    (hinv : ∀ v < 2 ^ e.k, e.fromSym (e.toSym v) = v)
    (data : List Nat) (hd : ∀ b ∈ data, b < 256) :
    decRun e (encRun e data) = data := by
  unfold decRun encRun
  rw [List.map_map]
  have hsyms : (packBits e.k (bytesToBits data)).map (e.fromSym ∘ e.toSym) =
      packBits e.k (bytesToBits data) :=
    list_map_fix _ _ (fun x hx =>
      hinv x (packBits_mem_lt e.k hk (bytesToBits data) (bytesToBits_lt_two data) x hx))
  rw [hsyms]
  have hlen : (packBits e.k (bytesToBits data)).length = encLenF e.k data.length := by
    rw [packBits_length e.k hk, bytesToBits_length]
    rfl
  rw [List.length_map, hlen]
  have hn : encLenF e.k data.length * e.k / 8 = data.length := by
    unfold encLenF
    exact ceil_mul_div_eight e.k data.length hk hk8
  rw [hn]
  obtain ⟨pad, hpad⟩ := packBits_flatMap e.k hk (bytesToBits data) (bytesToBits_lt_two data)
  rw [hpad]
  have htake : (bytesToBits data ++ List.replicate pad 0).take (8 * data.length) =
      bytesToBits data := by
    have h := List.take_left (bytesToBits data) (List.replicate pad 0)
    rwa [bytesToBits_length data] at h
  rw [htake]
  exact packBits_bytes data hd

/- ---------------------------------------------------------------------
   Framing facts
   --------------------------------------------------------------------- -/

theorem encoder_props (c : Nat) (e : encoder) (h : get_encoder c = some e) :
    0 < e.k ∧ e.k ≤ 8 ∧ ∀ v < 2 ^ e.k, e.fromSym (e.toSym v) = v := by
  unfold get_encoder at h
  split_ifs at h <;> injection h with h <;> subst h <;>
    exact ⟨by decide, by decide, by decide⟩

theorem b32_8to5_5to8 (v : Nat) (hv : v < 32) : b32_8to5 (b32_5to8 v) = v := by
  revert v hv
  decide

theorem hmac_md5_length (key msg : List Nat) : (hmac_md5 key msg).length = 16 := by
  simp [hmac_md5]

theorem hmac_md5_lt (key msg : List Nat) : ∀ b ∈ hmac_md5 key msg, b < 256 := by
  intro b hb
  simp only [hmac_md5, List.mem_map] at hb
  obtain ⟨i, _, rfl⟩ := hb
  exact Nat.mod_lt _ (by norm_num)

theorem be32_length (n : Nat) : (be32 n).length = 4 := rfl

theorem be32_lt (n : Nat) : ∀ b ∈ be32 n, b < 256 := by
  intro b hb
  simp only [be32, List.mem_cons, List.not_mem_nil, or_false] at hb
  rcases hb with rfl | rfl | rfl | rfl <;> exact Nat.mod_lt _ (by norm_num)

theorem dh_hmaclen_cases (flags : Nat) : dh_hmaclen flags = 4 ∨ dh_hmaclen flags = 12 := by
  unfold dh_hmaclen
  split <;> simp

theorem dh_hmaclen_eq (flags : Nat) :
    (if flags &&& DH_HMAC32 ≠ 0 then 4 else 12) = dh_hmaclen flags := rfl

theorem dh_adjust_noerr (flags : Nat) (herr : flags &&& DH_ERROR = 0) :
    dh_adjust flags = (flags, flags &&& 7) := by
  unfold dh_adjust
  rw [if_neg (by simp [herr])]

theorem frameBody_length (flags cmc : Nat) (key data : List Nat) :
    (frameBody flags cmc key data).length = 4 + dh_hmaclen flags + data.length := by
  have h16 : dh_hmaclen flags ≤ 16 := by rcases dh_hmaclen_cases flags with h | h <;> omega
  simp [frameBody, be32_length, List.length_take, hmac_md5_length]
  omega

theorem frameBody_lt (flags cmc : Nat) (key data : List Nat) (hdata : ∀ b ∈ data, b < 256) :
    ∀ b ∈ frameBody flags cmc key data, b < 256 := by
  intro b hb
  simp only [frameBody, List.append_assoc, List.mem_append] at hb
  rcases hb with h | h | h
  · exact be32_lt cmc b h
  · exact hmac_md5_lt _ _ b (List.mem_of_mem_take h)
  · exact hdata b h

/-- Evaluation of `downstream_encode` with the error flag clear, an
assigned codec and a large enough output buffer: the frame is the encoded
flags byte followed by the full encoding of counter, MAC and payload. -/
theorem downstream_encode_eval (flags : Nat) (e : encoder)
    (herr : flags &&& DH_ERROR = 0)
    (henc : get_encoder (flags &&& 7) = some e)
    (outbuf data key : List Nat) (cmc : Nat)
    (hraw : 5 + dh_hmaclen flags + data.length ≤ outbuf.length)
    (hcap : encLenF e.k (4 + dh_hmaclen flags + data.length) + 3 ≤ outbuf.length) :
    downstream_encode outbuf data (some key) flags cmc =
      some ((encRun e (frameBody flags cmc key data)).length + 1,
        b32_5to8 flags ::
          (encRun e (frameBody flags cmc key data) ++
            (outbuf.drop 1).drop (encRun e (frameBody flags cmc key data)).length)) := by
  obtain ⟨hk, hk8, _⟩ := encoder_props _ e henc
  have hel : (encRun e (frameBody flags cmc key data)).length =
      encLenF e.k (4 + dh_hmaclen flags + data.length) := by
    rw [encRun_length e hk, frameBody_length]
  simp only [frameBody] at hel ⊢
  simp only [downstream_encode, dh_adjust_noerr flags herr, encode_data, henc]
  rw [if_neg (by omega : ¬ outbuf.length < 5 + dh_hmaclen flags + data.length)]
  rw [List.take_of_length_le (by omega)]

/-- Evaluation of `downstream_decode` on a well-formed frame produced with
the same key: the payload and its length are returned exactly and the
error state is untouched. -/
theorem downstream_decode_eval (flags : Nat) (e : encoder)
    (hflags : flags < 32) (herr : flags &&& DH_ERROR = 0)
    (henc : get_encoder (flags &&& 7) = some e)
    (decbuf data key : List Nat) (cmc err0 : Nat)
    (hdata : ∀ b ∈ data, b < 256)
    (hdec : data.length ≤ decbuf.length) :
    downstream_decode decbuf
      (b32_5to8 flags :: encRun e (frameBody flags cmc key data)) (some key) err0 =
      ⟨1, data.length, data ++ decbuf.drop data.length, err0⟩ := by
  obtain ⟨hk, hk8, hinv⟩ := encoder_props _ e henc
  have h16 : dh_hmaclen flags ≤ 16 := by rcases dh_hmaclen_cases flags with h | h <;> omega
  have hbl := frameBody_length flags cmc key data
  have hel : (encRun e (frameBody flags cmc key data)).length =
      encLenF e.k (4 + dh_hmaclen flags + data.length) := by
    rw [encRun_length e hk, frameBody_length]
  have hge : 4 + dh_hmaclen flags + data.length ≤
      encLenF e.k (4 + dh_hmaclen flags + data.length) := encLenF_ge _ _ hk hk8
  have hpos : 0 < encLenF e.k (4 + dh_hmaclen flags + data.length) :=
    encLenF_pos _ _ hk (by omega)
  have hrt : decRun e (encRun e (frameBody flags cmc key data)) =
      frameBody flags cmc key data :=
    codec_roundtrip e hk hk8 hinv _ (frameBody_lt flags cmc key data hdata)
  simp only [downstream_decode]
  rw [if_neg (by simp only [List.length_cons]; omega)]
  simp only [List.getD_cons_zero, b32_8to5_5to8 flags hflags, dh_hmaclen_eq]
  rw [if_neg (by simp [herr])]
  simp only [decodeRest, List.length_cons, List.drop_succ_cons, List.drop_zero,
    Nat.add_sub_cancel]
  simp only [unpack_data, henc, hrt]
  rw [show (frameBody flags cmc key data).take
      ((encRun e (frameBody flags cmc key data)).length) =
    frameBody flags cmc key data from List.take_of_length_le (by omega)]
  rw [if_neg (by omega : ¬ (frameBody flags cmc key data).length < 4 + dh_hmaclen flags)]
  rw [if_neg (by omega :
    ¬ decbuf.length < (frameBody flags cmc key data).length - 4 - dh_hmaclen flags)]
  rw [if_pos herr]
  set FB := frameBody flags cmc key data with hFBdef
  set ES := encRun e FB with hESdef
  set Z := List.drop FB.length (List.replicate ES.length 0) with hZdef
  have hsplit : FB = be32 cmc ++
      (hmac_md5 key (be32 (1 + 4 + dh_hmaclen flags + data.length) ++ [b32_5to8 flags] ++
        be32 cmc ++ List.replicate (dh_hmaclen flags) 0 ++ data)).take (dh_hmaclen flags) ++
      data := hFBdef
  set MT := (hmac_md5 key (be32 (1 + 4 + dh_hmaclen flags + data.length) ++ [b32_5to8 flags] ++
    be32 cmc ++ List.replicate (dh_hmaclen flags) 0 ++ data)).take (dh_hmaclen flags) with hMTdef
  have hMTlen : MT.length = dh_hmaclen flags := by
    rw [hMTdef, List.length_take, hmac_md5_length]
    omega
  have hshape : FB ++ Z = be32 cmc ++ (MT ++ (data ++ Z)) := by
    rw [hsplit, List.append_assoc, List.append_assoc]
  have h1 : (FB ++ Z).take 4 = be32 cmc := by
    rw [hshape]
    have h := List.take_left (be32 cmc) (MT ++ (data ++ Z))
    rwa [be32_length] at h
  have h2 : (FB ++ Z).drop 4 = MT ++ (data ++ Z) := by
    rw [hshape]
    have h := List.drop_left (be32 cmc) (MT ++ (data ++ Z))
    rwa [be32_length] at h
  have h3 : (MT ++ (data ++ Z)).take (dh_hmaclen flags) = MT := by
    have h := List.take_left MT (data ++ Z)
    rwa [hMTlen] at h
  have hshape2 : FB ++ Z = (be32 cmc ++ MT) ++ (data ++ Z) := by
    rw [hsplit, List.append_assoc]
  have h4 : (FB ++ Z).drop (4 + dh_hmaclen flags) = data ++ Z := by
    rw [hshape2]
    have h := List.drop_left (be32 cmc ++ MT) (data ++ Z)
    rwa [List.length_append, be32_length, hMTlen] at h
  have h5 : (data ++ Z).take data.length = data := List.take_left data Z
  have hsub : FB.length - 4 - dh_hmaclen flags = data.length := by omega
  have hlen1 : FB.length + 1 = 1 + 4 + dh_hmaclen flags + data.length := by omega
  have hgetD : (b32_5to8 flags :: ES).getD 0 0 = b32_5to8 flags := rfl
  simp only [hgetD, hlen1, hsub, h1, h2, h3, h4, h5, ← hMTdef]
  rw [if_neg (fun h => h rfl)]

/-- Every exit of `decodeRest` is either the `_dderr` raw-copy failure or
a success with return value 1. -/
theorem decodeRest_shape (outbuf encdata : List Nat) (key : Option (List Nat))
    (flags errcode errCur hmaclen : Nat) :
    (∃ e, decodeRest outbuf encdata key flags errcode errCur hmaclen =
      dderrRes outbuf encdata e) ∨
    (decodeRest outbuf encdata key flags errcode errCur hmaclen).ret = 1 := by
  rcases key with _ | hk <;>
  · simp only [decodeRest]
    split_ifs <;>
      first
      | exact Or.inl ⟨_, rfl⟩
      | (right; rfl)

/-- Every exit of `downstream_decode` is either the `_dderr` raw-copy
failure or a success with return value 1. -/
theorem downstream_decode_shape (outbuf encdata : List Nat) (key : Option (List Nat))
    (err0 : Nat) :
    (∃ e, downstream_decode outbuf encdata key err0 = dderrRes outbuf encdata e) ∨
    (downstream_decode outbuf encdata key err0).ret = 1 := by
  simp only [downstream_decode]
  split_ifs <;>
    first
    | exact Or.inl ⟨_, rfl⟩
    | exact decodeRest_shape _ _ _ _ _ _ _

/- ---------------------------------------------------------------------
   Claim theorems
   --------------------------------------------------------------------- -/

/-- C7: for in-range values the forward distance `DISTF l a b` is `b - a`
when `a ≤ b` and `l - a + b` otherwise, the backward distance `DISTB` is
`l` minus the forward distance, and `SEQ_OFFSET start a` is `a - start`
when `a ≥ start` and `MAX_SEQ_ID - start + a` otherwise — as exact integer
arithmetic, with no wraparound of the C unsigned subtraction. -/
theorem seq_distance_formulas (l a b s x : Nat)
    (ha : a < l) (hb : b < l) (hs : s < MAX_SEQ_ID) (hx : x < MAX_SEQ_ID) :
    ((DISTF l a b : Int) = if a ≤ b then (b : Int) - a else (l : Int) - a + b) ∧
    ((DISTB l a b : Int) = (l : Int) - DISTF l a b) ∧
    ((SEQ_OFFSET s x : Int) = if x ≥ s then (x : Int) - s else (MAX_SEQ_ID : Int) - s + x) := by
  have hle := DISTF_le l a b ha hb
  refine ⟨?_, ?_, ?_⟩
  · unfold DISTF
    split_ifs <;> push_cast <;> omega
  · unfold DISTB
    push_cast [hle]
    ring
  · simp only [MAX_SEQ_ID] at hs hx
    unfold SEQ_OFFSET MAX_SEQ_ID
    split_ifs <;> push_cast <;> omega

/-- Witness for C7 at `l = 8, a = 5, b = 2, start = 200, a = 10`. -/
theorem seq_distance_formulas_witness :
    (DISTF 8 5 2 : Int) = 5 ∧ (DISTB 8 5 2 : Int) = 3 ∧ (SEQ_OFFSET 200 10 : Int) = 66 := by
  obtain ⟨h1, h2, h3⟩ :=
    seq_distance_formulas 8 5 2 200 10 (by norm_num) (by norm_num)
      (by norm_num [MAX_SEQ_ID]) (by norm_num [MAX_SEQ_ID])
  refine ⟨?_, ?_, ?_⟩
  · rw [h1]; norm_num
  · rw [h2, h1]; norm_num
  · rw [h3]; norm_num [MAX_SEQ_ID]

/-- C10: for sequence ids below `MAX_SEQ_ID`, the wrapped offset stays in
`0 .. MAX_SEQ_ID - 1`, and the offset of an id from itself is zero. -/
theorem seq_offset_bound (s a : Nat) (hs : s < MAX_SEQ_ID) (ha : a < MAX_SEQ_ID) :
    SEQ_OFFSET s a < MAX_SEQ_ID ∧ SEQ_OFFSET a a = 0 := by
  simp only [MAX_SEQ_ID] at hs ha
  unfold SEQ_OFFSET MAX_SEQ_ID
  constructor
  · split_ifs <;> omega
  · simp

/-- Witness for C10 at `start = 3, a = 250`. -/
theorem seq_offset_bound_witness :
    SEQ_OFFSET 3 250 < MAX_SEQ_ID ∧ SEQ_OFFSET 250 250 = 0 :=
  seq_offset_bound 3 250 (by norm_num [MAX_SEQ_ID]) (by norm_num [MAX_SEQ_ID])

/-- C9: when the codec byte selects no encoder, `encode_data` and
`unpack_data` both report zero bytes and leave the output buffer
untouched. -/
theorem no_encoder_encodes_nothing (buf : List Nat) (buflen : Nat) (data : List Nat)
    (codec : Nat) (h : get_encoder codec = none) :
    encode_data buf buflen data codec = (0, buf) ∧
    unpack_data buf buflen data codec = (0, buf) := by
  unfold encode_data unpack_data
  rw [h]
  exact ⟨rfl, rfl⟩

/-- Witness for C9 at codec byte 5 (an unassigned 3-bit value). -/
theorem no_encoder_encodes_nothing_witness :
    encode_data [3] 2 [1, 2] 5 = (0, [3]) ∧ unpack_data [3] 2 [1, 2] 5 = (0, [3]) :=
  no_encoder_encodes_nothing [3] 2 [1, 2] 5 rfl

/-- Facts about `dh_adjust` with the error flag set, checked over all flag
bytes: the MAC length used is 12, the codec used is base32, and the result
does not depend on the caller's short-MAC bit (`flags &&& 247` clears it). -/
theorem dh_adjust_error_facts : ∀ f : Nat, f < 256 → f &&& DH_ERROR ≠ 0 →
    dh_hmaclen (dh_adjust f).1 = 12 ∧ (dh_adjust f).2 = C_BASE32 ∧
    dh_adjust f = dh_adjust (f &&& 247) := by decide

/-- Facts about `dh_adjust` with the error flag clear, checked over all
flag bytes. -/
theorem dh_adjust_noerror_facts : ∀ f : Nat, f < 256 → f &&& DH_ERROR = 0 →
    (dh_adjust f).1 = f ∧ (dh_adjust f).2 = f &&& 7 ∧
    dh_hmaclen (dh_adjust f).1 = (if f &&& DH_HMAC32 ≠ 0 then 4 else 12) := by decide

/-- C2: with the error flag set, `downstream_encode` uses a 12-byte MAC and
the base32 codec and its output is independent of the caller's short-MAC
bit; with the error flag clear, the MAC is 4 bytes when the short-MAC flag
is set and 12 bytes otherwise, and the requested codec (low 3 bits) is
used. -/
theorem encode_error_forces_long_mac_base32 (flags : Nat) (hf : flags < 256) :
    (flags &&& DH_ERROR ≠ 0 →
      dh_hmaclen (dh_adjust flags).1 = 12 ∧ (dh_adjust flags).2 = C_BASE32 ∧
      ∀ (outbuf data : List Nat) (key : Option (List Nat)) (cmc : Nat),
        downstream_encode outbuf data key flags cmc =
        downstream_encode outbuf data key (flags &&& 247) cmc) ∧
    (flags &&& DH_ERROR = 0 →
      dh_hmaclen (dh_adjust flags).1 = (if flags &&& DH_HMAC32 ≠ 0 then 4 else 12) ∧
      (dh_adjust flags).2 = flags &&& 7) := by
  constructor
  · intro he
    obtain ⟨h1, h2, h3⟩ := dh_adjust_error_facts flags hf he
    refine ⟨h1, h2, ?_⟩
    intro outbuf data key cmc
    unfold downstream_encode
    rw [h3]
  · intro he
    obtain ⟨_, h2, h3⟩ := dh_adjust_noerror_facts flags hf he
    exact ⟨h3, h2⟩

/-- Witness for C2 at flags byte 25 (error + short-MAC + codec base64). -/
theorem encode_error_forces_long_mac_base32_witness :
    dh_hmaclen (dh_adjust 25).1 = 12 ∧ (dh_adjust 25).2 = C_BASE32 ∧
    downstream_encode (List.replicate 30 0) [1] (some [2]) 25 0 =
      downstream_encode (List.replicate 30 0) [1] (some [2]) (25 &&& 247) 0 := by
  obtain ⟨h1, _⟩ := encode_error_forces_long_mac_base32 25 (by norm_num)
  obtain ⟨a, b, c⟩ := h1 (by decide)
  exact ⟨a, b, c _ _ _ _⟩

/-- C8: codec-name lookup is case-insensitive and recognises exactly the
five names base32, base64, base64u, base128 and raw (anything else yields
the unset codec), and `get_encoder` looks only at the low 3 bits of the
codec byte, returning no encoder for the three unassigned values. -/
theorem codec_selection :
    (∀ s : List Nat, get_codec_from_name s = get_codec_from_name (s.map cLower)) ∧
    (∀ s : List Nat, get_codec_from_name s ≠ C_UNSET ↔
      (s.map cLower = nameBase32 ∨ s.map cLower = nameBase64 ∨ s.map cLower = nameBase64u ∨
       s.map cLower = nameBase128 ∨ s.map cLower = nameRaw)) ∧
    (∀ c : Nat, get_encoder c = get_encoder (c &&& 7) ∧
      ((get_encoder c).isNone ↔ (c &&& 7 = 5 ∨ c &&& 7 = 6 ∨ c &&& 7 = 7))) := by
  have hmapmap : ∀ s : List Nat, (s.map cLower).map cLower = s.map cLower := by
    intro s
    induction s with
    | nil => rfl
    | cons a t ih => simp only [List.map_cons, cLower_cLower, ih]
  have e32 : ∀ s, strcaseEq s nameBase32 ↔ s.map cLower = nameBase32 :=
    fun s => strcaseEq_lowername s _ (by decide)
  have e64 : ∀ s, strcaseEq s nameBase64 ↔ s.map cLower = nameBase64 :=
    fun s => strcaseEq_lowername s _ (by decide)
  have e64u : ∀ s, strcaseEq s nameBase64u ↔ s.map cLower = nameBase64u :=
    fun s => strcaseEq_lowername s _ (by decide)
  have e128 : ∀ s, strcaseEq s nameBase128 ↔ s.map cLower = nameBase128 :=
    fun s => strcaseEq_lowername s _ (by decide)
  have eraw : ∀ s, strcaseEq s nameRaw ↔ s.map cLower = nameRaw :=
    fun s => strcaseEq_lowername s _ (by decide)
  refine ⟨?_, ?_, ?_⟩
  · intro s
    simp only [get_codec_from_name, strcaseEq, hmapmap]
  · intro s
    simp only [get_codec_from_name, e32, e64, e64u, e128, eraw]
    split_ifs with h1 h2 h3 h4 h5 <;>
      simp_all [C_BASE32, C_BASE64, C_BASE64U, C_BASE128, C_RAW, C_UNSET]
  · intro c
    have h7 : c &&& 7 ≤ 7 := Nat.and_le_right
    have hand : (c &&& 7) &&& 7 = c &&& 7 := by
      rw [Nat.and_assoc]
      norm_num
    constructor
    · unfold get_encoder
      rw [hand]
    · unfold get_encoder
      split_ifs <;>
        simp_all [C_BASE32, C_BASE64, C_BASE64U, C_BASE128, C_RAW] <;> omega

/-- C6 (amended): `downstream_encode` fails (returns 0, modelled `none`)
exactly when the output buffer is smaller than the unencoded frame size
`5 + maclen + datalen`; the check is not against the encoded size. -/
theorem encode_fails_iff_raw_frame_too_big (outbuf data : List Nat)
    (key : Option (List Nat)) (flags cmc : Nat) :
    downstream_encode outbuf data key flags cmc = none ↔
      outbuf.length < 5 + dh_hmaclen (dh_adjust flags).1 + data.length := by
  simp only [downstream_encode]
  split_ifs with h <;> simp [h]

/-- C6 counterexample: an empty payload, base32, 12-byte MAC frame needs
`1 + encLenF 5 16 = 27` encoded bytes, yet with a 17-byte output buffer
(smaller than that required encoded size) `downstream_encode` still
returns success with a nonzero reported length of 15. -/
theorem encode_success_despite_small_buffer :
    (List.replicate 17 (0 : Nat)).length < 1 + encLenF b32.k (4 + 12 + 0) ∧
    (downstream_encode (List.replicate 17 0) [] (some (List.replicate 16 0)) 0 0).map
      Prod.fst = some 15 := by
  constructor
  · decide
  · rfl

/-- C1: framing round trip.  For every payload of in-range bytes, every
assigned codec, any short-MAC setting (error flag clear) and the same MAC
key on both sides, decoding the frame built by `downstream_encode` (with
buffers large enough for the frame) succeeds, returns exactly the original
payload bytes and length, and leaves the decode error state untouched. -/
theorem frame_roundtrip (flags : Nat) (e : encoder)
    (hflags : flags < 32) (herr : flags &&& DH_ERROR = 0)
    (henc : get_encoder (flags &&& 7) = some e)
    (outbuf data key decbuf : List Nat) (cmc err0 : Nat)
    (hdata : ∀ b ∈ data, b < 256)
    (hraw : 5 + dh_hmaclen flags + data.length ≤ outbuf.length)
    (hcap : encLenF e.k (4 + dh_hmaclen flags + data.length) + 3 ≤ outbuf.length)
    (hdec : data.length ≤ decbuf.length) :
    ∃ n out, downstream_encode outbuf data (some key) flags cmc = some (n, out) ∧
      downstream_decode decbuf (out.take n) (some key) err0 =
        ⟨1, data.length, data ++ decbuf.drop data.length, err0⟩ := by
  refine ⟨_, _, downstream_encode_eval flags e herr henc outbuf data key cmc hraw hcap, ?_⟩
  have htake : (b32_5to8 flags :: (encRun e (frameBody flags cmc key data) ++
      (outbuf.drop 1).drop (encRun e (frameBody flags cmc key data)).length)).take
      ((encRun e (frameBody flags cmc key data)).length + 1) =
      b32_5to8 flags :: encRun e (frameBody flags cmc key data) := by
    rw [List.take_succ_cons, List.take_left]
  rw [htake]
  exact downstream_decode_eval flags e hflags herr henc decbuf data key cmc err0 hdata hdec

/-- Witness for C1: payload `[10, 20]`, base32 codec, 12-byte MAC, key
`[9]`, counter 7. -/
theorem frame_roundtrip_witness :
    ∃ n out, downstream_encode (List.replicate 40 0) [10, 20] (some [9]) 0 7 = some (n, out) ∧
      downstream_decode (List.replicate 2 0) (out.take n) (some [9]) 3 =
        ⟨1, 2, [10, 20] ++ (List.replicate 2 0).drop 2, 3⟩ :=
  frame_roundtrip 0 b32 (by decide) (by decide) rfl
    (List.replicate 40 0) [10, 20] [9] (List.replicate 2 0) 7 3
    (by decide) (by decide) (by decide) (by decide)

/-- C5: `downstream_decode` always returns 0 or 1 (no fatal condition, only
an error code), and every failing call (return 0) copies the raw encoded
input verbatim — up to the output capacity — into the output buffer as a
diagnostic fallback. -/
theorem decode_failure_copies_raw_input (outbuf encdata : List Nat)
    (key : Option (List Nat)) (err0 : Nat) :
    ((downstream_decode outbuf encdata key err0).ret = 0 ∨
     (downstream_decode outbuf encdata key err0).ret = 1) ∧
    ((downstream_decode outbuf encdata key err0).ret = 0 →
      (downstream_decode outbuf encdata key err0).outlen = min outbuf.length encdata.length ∧
      (downstream_decode outbuf encdata key err0).out =
        encdata.take (min outbuf.length encdata.length) ++
          outbuf.drop (min outbuf.length encdata.length)) := by
  rcases downstream_decode_shape outbuf encdata key err0 with ⟨e, he⟩ | h1
  · rw [he]
    exact ⟨Or.inl rfl, fun _ => ⟨rfl, rfl⟩⟩
  · refine ⟨Or.inr h1, fun h0 => ?_⟩
    rw [h1] at h0
    cases h0

/-- Witness for C5 on a concrete failing input. -/
theorem decode_failure_copies_raw_input_witness :
    (downstream_decode [4, 4, 4] [97, 98] none 0).outlen = min 3 2 ∧
    (downstream_decode [4, 4, 4] [97, 98] none 0).out =
      [97, 98].take (min 3 2) ++ [4, 4, 4].drop (min 3 2) := by
  have h := decode_failure_copies_raw_input [4, 4, 4] [97, 98] none 0
  exact h.2 (by decide)

/-- C3: a frame whose decoded flags byte carries both the error flag and
the short-MAC flag is rejected through the `_dderr` exit with the bad-HMAC
error code set, delivering no payload. -/
theorem decode_error_with_short_mac_rejected (outbuf encdata : List Nat)
    (key : Option (List Nat)) (err0 : Nat)
    (hlen : 2 ≤ encdata.length)
    (herr : b32_8to5 (encdata.getD 0 0) &&& DH_ERROR ≠ 0)
    (hmac32 : b32_8to5 (encdata.getD 0 0) &&& DH_HMAC32 ≠ 0) :
    downstream_decode outbuf encdata key err0 =
      dderrRes outbuf encdata (DDERR_IS_ANS ||| DDERR_BADHMAC) ∧
    (downstream_decode outbuf encdata key err0).ret = 0 ∧
    (downstream_decode outbuf encdata key err0).err &&& DDERR_BADHMAC ≠ 0 := by
  have hmain : downstream_decode outbuf encdata key err0 =
      dderrRes outbuf encdata (DDERR_IS_ANS ||| DDERR_BADHMAC) := by
    simp only [downstream_decode]
    rw [if_neg (by omega), if_pos hmac32, if_pos herr, if_pos rfl]
  refine ⟨hmain, ?_, ?_⟩
  · rw [hmain]; rfl
  · rw [hmain]
    show (DDERR_IS_ANS ||| DDERR_BADHMAC) &&& DDERR_BADHMAC ≠ 0
    decide

/-- Witness for C3 at the concrete frame `[121, 0]` (decoded flags byte
24 = error + short-MAC). -/
theorem decode_error_with_short_mac_rejected_witness :
    downstream_decode [5, 5] [121, 0] none 0 =
      dderrRes [5, 5] [121, 0] (DDERR_IS_ANS ||| DDERR_BADHMAC) ∧
    (downstream_decode [5, 5] [121, 0] none 0).ret = 0 ∧
    (downstream_decode [5, 5] [121, 0] none 0).err &&& DDERR_BADHMAC ≠ 0 :=
  decode_error_with_short_mac_rejected [5, 5] [121, 0] none 0
    (by decide) (by decide) (by decide)

/-- C4: on an input of encoded length 1 (< 2) `downstream_decode` rejects
the frame and copies the raw byte out, but leaves the global error state
unchanged (here the stale values 0 and 7 survive) instead of reporting
`DDERR_TOOSHORT`. -/
theorem decode_too_short_keeps_stale_err :
    downstream_decode (List.replicate 4 9) [97] none 0 = ⟨0, 1, [97, 9, 9, 9], 0⟩ ∧
    downstream_decode (List.replicate 4 9) [97] none 7 = ⟨0, 1, [97, 9, 9, 9], 7⟩ ∧
    (downstream_decode (List.replicate 4 9) [97] none 0).err ≠ DDERR_TOOSHORT := by
  refine ⟨rfl, rfl, ?_⟩
  decide

end Iodine
